import Mathlib

/-!
# Verification of the diskv disk-backed key-value store

Shallow embedding of the diskv store (`diskv.go`, `store.go`,
`ordered_store.go`, `index.go`) and proofs about its cache accounting,
eviction, round-trip, pagination, pruning and erase behaviour.

The embedding follows the source: the store state carries the on-disk
key/value map (the filesystem primitives are assumed reliable, as the
specification stipulates), the in-memory cache map, the tracked cache
size, the optional ordered index, and the list of pending lazy
cache-population tasks spawned by `Read` (`go d.cacheWithoutLock(key, val)`).
Every lock-protected critical section of the Go code is one atomic step;
a schedule is a list of steps, where `Op.commit i` runs the i-th pending
population task (the goroutine body, which acquires the write lock).
A Go `panic` sets a `panicked` flag; a panicked process performs no
further steps.
-/

namespace Diskv

/-- Byte strings are modelled as lists of naturals. -/
abbrev Bytes := List Nat

/-- Association-list update, mirroring Go map assignment `m[k] = v`
(replaces the existing entry, otherwise appends). -/
def assocPut (l : List (String × Bytes)) (k : String) (v : Bytes) :
    List (String × Bytes) :=
  match l with
  | [] => [(k, v)]
  | (k', v') :: t => if k' = k then (k, v) :: t else (k', v') :: assocPut t k v

/-- Association-list lookup, mirroring Go map indexing `v, ok := m[k]`. -/
def assocGet (l : List (String × Bytes)) (k : String) : Option Bytes :=
  match l with
  | [] => none
  | (k', v) :: t => if k' = k then some v else assocGet t k

/-- Association-list deletion, mirroring Go `delete(m, k)`. -/
def assocDel (l : List (String × Bytes)) (k : String) : List (String × Bytes) :=
  match l with
  | [] => []
  | (k', v) :: t => if k' = k then assocDel t k else (k', v) :: assocDel t k

/-- The keys of an association list. -/
def assocKeys (l : List (String × Bytes)) : List String := l.map (·.1)

/-- Sum of the byte lengths of all values in a map: the quantity the
cache size counter is supposed to track. -/
def cacheSum (l : List (String × Bytes)) : Nat :=
  (l.map (fun p => p.2.length)).sum

/-- Set-like insertion for the ordered index (`llrb.ReplaceOrInsert`:
inserting a present key leaves the key set unchanged). -/
def indexInsert (l : List String) (k : String) : List String :=
  if k ∈ l then l else k :: l

/-- Index deletion (`llrb.Delete`). -/
def indexErase (l : List String) (k : String) : List String :=
  l.filter (fun k' => k' ≠ k)

/-- A compression codec: the pair of stream filters from `compression.go`,
abstracted to byte-sequence functions (`Compress`/`Decompress`). -/
structure Codec where
  comp : Bytes → Bytes
  decomp : Bytes → Bytes

/-- The configuration options of a store (`Options` in diskv.go):
cache maximum, whether an `Index` is configured, and the optional
`Compression` codec. -/
structure Config where
  cacheSizeMax : Nat
  hasIndex : Bool
  compression : Option Codec

/-- `d.compress`: apply the codec when one is configured. -/
def maybeCompress (cfg : Config) (v : Bytes) : Bytes :=
  match cfg.compression with
  | some c => c.comp v
  | none => v

/-- `d.decompress`: apply the codec when one is configured. -/
def maybeDecompress (cfg : Config) (v : Bytes) : Bytes :=
  match cfg.compression with
  | some c => c.decomp v
  | none => v

/-- The mutable state of a `Diskv` store.  `disk` is the base directory
content (key ↦ stored file bytes; the spec's transform is "injective
enough that distinct keys map to distinct full paths", so the directory
tree is resolved per key); `cache` and `cacheSize` are `d.cache` and
`d.cacheSize`; `index` is the key set of the configured `d.Index`;
`pending` are the spawned, not-yet-run `cacheWithoutLock` goroutines;
`panicked` records that a `panic` fired. -/
structure State where
  disk : List (String × Bytes)
  cache : List (String × Bytes)
  cacheSize : Nat
  index : List String
  pending : List (String × Bytes)
  panicked : Bool
deriving DecidableEq

/-- The state of a freshly constructed store over an empty base
directory (`New`). -/
def initState : State :=
  { disk := [], cache := [], cacheSize := 0, index := [], pending := [],
    panicked := false }

/-- `Diskv.write` (diskv.go): reject empty keys; store the (optionally
compressed) bytes on disk, insert into the index when one is configured,
and invalidate the cache entry with a bare `delete(d.cache, key)` —
the source does not decrement `d.cacheSize`.  The returned Bool is
`true` on success. -/
def writeStep (cfg : Config) (s : State) (k : String) (v : Bytes) :
    State × Bool :=
  if k.length = 0 then (s, false)
  else
    ({ s with
        disk := assocPut s.disk k (maybeCompress cfg v)
        index := if cfg.hasIndex then indexInsert s.index k else s.index
        cache := assocDel s.cache k },
      true)

/-- The value returned by `Diskv.Read`: the decompressed cache entry on a
hit, otherwise the decompressed file contents, otherwise a read error
(`none`). -/
def readResult (cfg : Config) (s : State) (k : String) : Option Bytes :=
  match assocGet s.cache k with
  | some val => some (maybeDecompress cfg val)
  | none =>
    match assocGet s.disk k with
    | some val => some (maybeDecompress cfg val)
    | none => none

/-- The state effect of `Diskv.Read`: on a cache miss that finds the file
on disk, spawn the lazy population task `go d.cacheWithoutLock(key, val)`
carrying the raw file bytes. -/
def readStep (s : State) (k : String) : State :=
  match assocGet s.cache k with
  | some _ => s
  | none =>
    match assocGet s.disk k with
    | some val => { s with pending := s.pending ++ [(k, val)] }
    | none => s

/-- `Diskv.Erase`: remove the cache entry (decrementing the counter by
its stored length), remove the key from the index when one is
configured, and only then touch the disk; if the file is absent the
remaining state mutations are kept and an error is returned (`false`).
(The `bad key` branch for a path that resolves to a directory cannot
arise in this per-key disk model, which assumes the collision-free
transform of the specification.)  The "erase from cache" block comes
first. -/
def eraseCacheBlock (s : State) (k : String) : State :=
  match assocGet s.cache k with
  | some val =>
    { s with cacheSize := s.cacheSize - val.length, cache := assocDel s.cache k }
  | none => s

/-- The "erase from index" block of `Diskv.Erase`
(`if d.Index != nil { d.Index.Delete(key) }`). -/
def eraseIndexBlock (cfg : Config) (s : State) (k : String) : State :=
  if cfg.hasIndex then { s with index := indexErase s.index k } else s

def eraseStep (cfg : Config) (s : State) (k : String) : State × Bool :=
  let s2 := eraseIndexBlock cfg (eraseCacheBlock s k) k
  match assocGet s2.disk k with
  | some _ => ({ s2 with disk := assocDel s2.disk k }, true)
  | none => (s2, false)

/-- `Diskv.EraseAll`: fresh cache map, zero counter, `os.RemoveAll` of
the base path.  The source does not touch `d.Index` and cannot touch
already-spawned population goroutines. -/
def eraseAllStep (s : State) : State :=
  { s with cache := [], cacheSize := 0, disk := [] }

/-- The eviction loop of `ensureCacheSpaceFor`: while the incoming value
would not fit, delete entries and decrement the counter by each deleted
value's length.  Go iterates the map in unspecified order; the model
evicts in list order, one admissible order. -/
def evict (max valueSize : Nat) :
    List (String × Bytes) → Nat → List (String × Bytes) × Nat
  | [], size => ([], size)
  | (k', v') :: rest, size =>
    if size + valueSize ≤ max then ((k', v') :: rest, size)
    else evict max valueSize rest (size - v'.length)

/-- `Diskv.cacheWithLock` together with `ensureCacheSpaceFor`:
a value strictly larger than `CacheSizeMax` is rejected up front with an
ordinary error ("too large for cache; not caching") and no state change;
otherwise entries are evicted until the value fits; if even an emptied
cache leaves `cacheSize + valueSize > CacheSizeMax` the source panics
("still won't fit in the cache" — and `cacheWithLock`'s own
"failed to make room" check repeats the same comparison); otherwise the
value is stored with `d.cache[key] = val` (an unconditional map
assignment) and the counter is incremented by the value's length. -/
def cacheWithLock (cfg : Config) (s : State) (k : String) (val : Bytes) :
    State :=
  let valueSize := val.length
  if valueSize > cfg.cacheSizeMax then s
  else
    let r := evict cfg.cacheSizeMax valueSize s.cache s.cacheSize
    if r.2 + valueSize > cfg.cacheSizeMax then
      { s with cache := r.1, cacheSize := r.2, panicked := true }
    else
      { s with cache := assocPut r.1 k val, cacheSize := r.2 + valueSize }

/-- Running the i-th pending population goroutine
(`cacheWithoutLock`: take the write lock, call `cacheWithLock`). -/
def commitStep (cfg : Config) (s : State) (i : Nat) : State :=
  match s.pending.get? i with
  | none => s
  | some (k, val) =>
    cacheWithLock cfg { s with pending := s.pending.eraseIdx i } k val

/-- One schedulable atomic step: a public operation, or the execution of
a pending lazy cache-population task. -/
inductive Op where
  | write (k : String) (v : Bytes)
  | read (k : String)
  | erase (k : String)
  | eraseAll
  | commit (i : Nat)

/-- Execute one step.  A panicked process (a Go `panic` crashed it)
performs nothing further. -/
def step (cfg : Config) (s : State) (op : Op) : State :=
  if s.panicked then s
  else
    match op with
    | Op.write k v => (writeStep cfg s k v).1
    | Op.read k => readStep s k
    | Op.erase k => (eraseStep cfg s k).1
    | Op.eraseAll => eraseAllStep s
    | Op.commit i => commitStep cfg s i

/-- Execute a schedule. -/
def run (cfg : Config) (s : State) : List Op → State
  | [] => s
  | op :: ops => run cfg (step cfg s op) ops

/-- A state is reachable when some schedule of public operations (and
the population tasks they spawn) produces it from a fresh store. -/
def Reachable (cfg : Config) (s : State) : Prop :=
  ∃ ops, run cfg initState ops = s

/-- The codec round-trip contract of the specification:
`decompress(compress(x)) == x` for all byte sequences. -/
def RoundTrip (cfg : Config) : Prop :=
  ∀ x, maybeDecompress cfg (maybeCompress cfg x) = x

/-! ## The older `Store`/`OrderedStore` generation (store.go, ordered_store.go)

Only the parts the claims need: `OrderedStore.Flush` performs the
`Store.Flush` (fresh cache map, zero counter, `os.RemoveAll(baseDir)`)
and then reinitializes the order index (`s.index.Init(s.lf)`). -/

/-- State of an `OrderedStore` (ordered_store.go): the embedded `Store`
fields plus the llrb order index's key set. -/
structure OrderedStoreState where
  disk : List (String × Bytes)
  cache : List (String × Bytes)
  cacheSize : Nat
  index : List String
deriving DecidableEq

/-- `OrderedStore.Flush`: `Store.Flush` (which always succeeds in this
reliable-filesystem model) followed by `index.Init`, emptying the index. -/
def OrderedStore.Flush (_s : OrderedStoreState) : OrderedStoreState :=
  { disk := [], cache := [], cacheSize := 0, index := [] }

/-! ## The ordered index (index.go `LLRBIndex.Keys`,
ordered_store.go `OrderedStore.KeysFrom`)

The llrb tree with a caller-supplied comparator `less : llrb.LessFunc`
is represented by its in-order key list `L`; `Min()` is its head,
`Max()` its last element, `Has` is membership, and `IterRange(lo, hi)`
yields the elements `e` with `lo ≤ e < hi` in the comparator order,
i.e. `¬ less e lo ∧ less e hi`. -/

/-- GoLLRB `Tree.IterRange(lower, upper)` over the in-order key list. -/
def iterRange (less : String → String → Bool) (L : List String)
    (lo hi : String) : List String :=
  L.filter (fun e => !less e lo && less e hi)

/-- `LLRBIndex.Keys(from, n)` (index.go): empty tree gives no keys;
when `from` is empty or absent, iteration starts at `Min()` without
skipping; otherwise it starts at `from` and the first yielded key
(`from` itself) is skipped; at most `n` keys are sent from
`IterRange(start, Max())`, and if that channel closed before `n` keys
were sent, `Max()` is appended (the source's "hack to get around
IterRange returning only E < @upper"). -/
def llrbKeys (less : String → String → Bool) (L : List String)
    (f : String) (n : Nat) : List String :=
  if L.length ≤ 0 then []
  else
    let tMax := L.getLast?.getD ""
    let start := if f.length = 0 ∨ ¬ f ∈ L then (L.head?.getD "", false)
                 else (f, true)
    let c0 := iterRange less L start.1 tMax
    let c1 := if start.2 then c0.drop 1 else c0
    let sent := c1.take n
    if sent.length < n then sent ++ [tMax] else sent

/-- `OrderedStore.KeysFrom(k, count)` (ordered_store.go): the same
algorithm as `LLRBIndex.Keys`, writing into a pre-allocated slice. -/
def keysFrom (less : String → String → Bool) (L : List String)
    (k : String) (count : Nat) : List String :=
  if L.length ≤ 0 then []
  else
    let start := if k.length = 0 ∨ ¬ k ∈ L then (L.head?.getD "", false)
                 else (k, true)
    let c := iterRange less L start.1 (L.getLast?.getD "")
    let c1 := if start.2 then c.drop 1 else c
    let keys := c1.take count
    if keys.length < count then keys ++ [L.getLast?.getD ""] else keys

/-- Modelled from the spec: the pagination contract in the spec's words —
start at the minimum key (inclusive) when `startKey` is empty or absent
from the index, otherwise at the key immediately after `startKey`
(exclusive of `startKey` itself), returning fewer than `count` keys only
when the index is exhausted.  For comparison with `llrbKeys`/`keysFrom`. -/
def keysFromSpec (less : String → String → Bool) (L : List String)
    (f : String) (n : Nat) : List String :=
  if f.length = 0 ∨ ¬ f ∈ L then L.take n
  else (L.filter (fun e => less f e)).take n

/-! ## The directory tree and `pruneDirs` (diskv.go, store.go)

The directory tree under the base directory: `dirs` holds directories as
segment paths relative to the base (`[]` is the base directory itself),
`files` holds (directory, filename) entries.  `pruneDirs` walks the
key's transformed path list from the deepest prefix to the shallowest. -/

structure FS where
  dirs : List (List String)
  files : List (List String × String)
deriving DecidableEq

/-- `filepath.Glob(dir + "/*")` finds something: the directory holds a
file or an immediate subdirectory. -/
def hasEntries (fs : FS) (d : List String) : Bool :=
  fs.files.any (fun p => p.1 == d) ||
    fs.dirs.any (fun p => !p.isEmpty && p.dropLast == d)

/-- The loop of `pruneDirs`: for `i = 0 .. len-1` examine the directory
`baseDir/join(pathlist[:len-i])` (`m = len-i` is the prefix length):
abort with the error when `os.Stat` fails (the directory is missing),
stop (`return nil`) when the directory still has entries, otherwise
`os.Remove` it and continue with its parent. -/
def pruneFrom (pl : List String) : Nat → FS → FS
  | 0, fs => fs
  | m+1, fs =>
    let d := pl.take (m+1)
    if d ∈ fs.dirs then
      if hasEntries fs d then fs
      else pruneFrom pl m { fs with dirs := fs.dirs.erase d }
    else fs

/-- `Diskv.pruneDirs` / `Store.pruneDirs`, called by `Erase` after the
key's file has been removed.  (The `corrupt dirstate` panic for a
non-directory sitting at a directory path cannot arise in this model,
where `dirs` and `files` are disjoint namespaces.) -/
def pruneDirs (fs : FS) (pl : List String) : FS := pruneFrom pl pl.length fs

/-- A plain configuration without index or compression, as in most of
the repository's tests. -/
def cfgPlain (max : Nat) : Config :=
  { cacheSizeMax := max, hasIndex := false, compression := none }

/-- A configuration with an ordered index configured
(`Options.Index`/`Options.IndexLess` both set). -/
def cfgIndexed (max : Nat) : Config :=
  { cacheSizeMax := max, hasIndex := true, compression := none }

/-! ## Association-list and index lemmas -/

theorem assocGet_assocDel_self (l : List (String × Bytes)) (k : String) :
    assocGet (assocDel l k) k = none := by
  induction l with
  | nil => rfl
  | cons p t ih =>
    by_cases hp : p.1 = k
    · simpa [assocDel, hp] using ih
    · simpa [assocDel, hp, assocGet] using ih

theorem assocGet_assocDel_ne (l : List (String × Bytes)) {k k' : String}
    (h : k' ≠ k) : assocGet (assocDel l k) k' = assocGet l k' := by
  induction l with
  | nil => rfl
  | cons p t ih =>
    by_cases hp : p.1 = k
    · have hpk : ¬ k = k' := fun he => h he.symm
      simpa [assocDel, hp, assocGet, hpk] using ih
    · by_cases hk' : p.1 = k'
      · simp [assocDel, hp, assocGet, hk', h]
      · simpa [assocDel, hp, assocGet, hk'] using ih

theorem assocGet_assocPut_self (l : List (String × Bytes)) (k : String)
    (v : Bytes) : assocGet (assocPut l k v) k = some v := by
  induction l with
  | nil => simp [assocPut, assocGet]
  | cons p t ih =>
    by_cases h : p.1 = k
    · simp [assocPut, h, assocGet]
    · simpa [assocPut, h, assocGet] using ih

theorem assocGet_assocPut_ne (l : List (String × Bytes)) {k k' : String}
    (v : Bytes) (h : k' ≠ k) :
    assocGet (assocPut l k v) k' = assocGet l k' := by
  have hk : ¬ k = k' := fun he => h he.symm
  induction l with
  | nil => simp [assocPut, assocGet, hk]
  | cons p t ih =>
    by_cases hp : p.1 = k
    · have hpk : ¬ p.1 = k' := by rw [hp]; exact hk
      simp [assocPut, hp, assocGet, hk, hpk]
    · by_cases hk' : p.1 = k'
      · simp [assocPut, hp, assocGet, hk', h]
      · simpa [assocPut, hp, assocGet, hk'] using ih

theorem mem_assocKeys_assocDel {l : List (String × Bytes)} {k k' : String}
    (h : k' ∈ assocKeys (assocDel l k)) : k' ∈ assocKeys l := by
  induction l with
  | nil => simpa [assocDel] using h
  | cons p t ih =>
    by_cases hp : p.1 = k
    · simp only [assocDel, hp, if_pos] at h
      exact List.mem_cons_of_mem _ (ih h)
    · simp only [assocDel, hp, if_neg, not_false_iff, assocKeys,
        List.map_cons, List.mem_cons] at h ⊢
      rcases h with h | h
      · exact Or.inl h
      · exact Or.inr (ih (by simpa [assocKeys] using h))

theorem not_mem_assocKeys_assocDel (l : List (String × Bytes)) (k : String) :
    k ∉ assocKeys (assocDel l k) := by
  induction l with
  | nil => simp [assocDel, assocKeys]
  | cons p t ih =>
    by_cases hp : p.1 = k
    · simpa [assocDel, hp] using ih
    · intro hmem
      simp only [assocDel, hp, if_neg, not_false_iff, assocKeys,
        List.map_cons, List.mem_cons] at hmem
      rcases hmem with he | hmem
      · exact hp he.symm
      · exact ih (by simpa [assocKeys] using hmem)

theorem mem_assocKeys_assocPut {l : List (String × Bytes)} {k k' : String}
    {v : Bytes} (h : k' ∈ assocKeys (assocPut l k v)) :
    k' = k ∨ k' ∈ assocKeys l := by
  induction l with
  | nil => simpa [assocPut, assocKeys] using h
  | cons p t ih =>
    by_cases hp : p.1 = k
    · simp only [assocPut, hp, if_pos, assocKeys, List.map_cons, List.mem_cons] at h
      rcases h with h | h
      · exact Or.inl h
      · exact Or.inr (List.mem_cons_of_mem _ h)
    · simp only [assocPut, hp, if_neg, not_false_iff, assocKeys, List.map_cons,
        List.mem_cons] at h
      rcases h with h | h
      · exact Or.inr (by simp [assocKeys, h])
      · rcases ih (by simpa [assocKeys] using h) with h' | h'
        · exact Or.inl h'
        · exact Or.inr (List.mem_cons_of_mem _ (by simpa [assocKeys] using h'))

theorem assocGet_eq_none_of_not_mem {l : List (String × Bytes)}
    {k : String} (h : k ∉ assocKeys l) : assocGet l k = none := by
  induction l with
  | nil => rfl
  | cons p t ih =>
    simp only [assocKeys, List.map_cons, List.mem_cons, not_or] at h
    have h1 : ¬ p.1 = k := fun he => h.1 he.symm
    simp [assocGet, h1, ih (by simpa [assocKeys] using h.2)]

theorem mem_assocKeys_of_assocGet {l : List (String × Bytes)} {k : String}
    {v : Bytes} (h : assocGet l k = some v) : k ∈ assocKeys l := by
  induction l with
  | nil => simp [assocGet] at h
  | cons p t ih =>
    by_cases hp : p.1 = k
    · simp [assocKeys, hp]
    · simp only [assocGet, hp, if_neg, not_false_iff] at h
      exact List.mem_cons_of_mem _ (ih h)

theorem assocDel_of_not_mem {l : List (String × Bytes)} {k : String}
    (h : k ∉ assocKeys l) : assocDel l k = l := by
  induction l with
  | nil => rfl
  | cons p t ih =>
    simp only [assocKeys, List.map_cons, List.mem_cons, not_or] at h
    have h1 : ¬ p.1 = k := fun he => h.1 he.symm
    simp [assocDel, h1, ih (by simpa [assocKeys] using h.2)]

theorem indexErase_of_not_mem {l : List String} {k : String} (h : k ∉ l) :
    indexErase l k = l := by
  induction l with
  | nil => rfl
  | cons a t ih =>
    simp only [List.mem_cons, not_or] at h
    have h1 : a ≠ k := fun he => h.1 he.symm
    simpa [indexErase, List.filter_cons, h1] using ih h.2

theorem mem_indexErase {l : List String} {k k' : String} :
    k' ∈ indexErase l k ↔ k' ∈ l ∧ k' ≠ k := by
  simp [indexErase, List.mem_filter]

/-! ## Projection lemmas for the erase blocks -/

theorem eraseCacheBlock_disk (s : State) (k : String) :
    (eraseCacheBlock s k).disk = s.disk := by
  cases h : assocGet s.cache k <;> simp [eraseCacheBlock, h]

theorem eraseCacheBlock_index (s : State) (k : String) :
    (eraseCacheBlock s k).index = s.index := by
  cases h : assocGet s.cache k <;> simp [eraseCacheBlock, h]

theorem eraseCacheBlock_pending (s : State) (k : String) :
    (eraseCacheBlock s k).pending = s.pending := by
  cases h : assocGet s.cache k <;> simp [eraseCacheBlock, h]

theorem eraseCacheBlock_panicked (s : State) (k : String) :
    (eraseCacheBlock s k).panicked = s.panicked := by
  cases h : assocGet s.cache k <;> simp [eraseCacheBlock, h]

theorem eraseCacheBlock_cacheSize_le (s : State) (k : String) :
    (eraseCacheBlock s k).cacheSize ≤ s.cacheSize := by
  cases h : assocGet s.cache k <;> simp [eraseCacheBlock, h, Nat.sub_le]

theorem eraseIndexBlock_disk (cfg : Config) (s : State) (k : String) :
    (eraseIndexBlock cfg s k).disk = s.disk := by
  unfold eraseIndexBlock; split <;> rfl

theorem eraseIndexBlock_cache (cfg : Config) (s : State) (k : String) :
    (eraseIndexBlock cfg s k).cache = s.cache := by
  unfold eraseIndexBlock; split <;> rfl

theorem eraseIndexBlock_cacheSize (cfg : Config) (s : State) (k : String) :
    (eraseIndexBlock cfg s k).cacheSize = s.cacheSize := by
  unfold eraseIndexBlock; split <;> rfl

theorem eraseIndexBlock_pending (cfg : Config) (s : State) (k : String) :
    (eraseIndexBlock cfg s k).pending = s.pending := by
  unfold eraseIndexBlock; split <;> rfl

theorem eraseIndexBlock_panicked (cfg : Config) (s : State) (k : String) :
    (eraseIndexBlock cfg s k).panicked = s.panicked := by
  unfold eraseIndexBlock; split <;> rfl

theorem eraseIndexBlock_index (cfg : Config) (s : State) (k : String) :
    (eraseIndexBlock cfg s k).index =
      if cfg.hasIndex then indexErase s.index k else s.index := by
  unfold eraseIndexBlock; split <;> simp_all

theorem eraseStep_cache (cfg : Config) (s : State) (k : String) :
    (eraseStep cfg s k).1.cache = (eraseCacheBlock s k).cache := by
  simp only [eraseStep]
  cases h : assocGet (eraseIndexBlock cfg (eraseCacheBlock s k) k).disk k <;>
    simp [h, eraseIndexBlock_cache]

theorem eraseStep_cacheSize (cfg : Config) (s : State) (k : String) :
    (eraseStep cfg s k).1.cacheSize = (eraseCacheBlock s k).cacheSize := by
  simp only [eraseStep]
  cases h : assocGet (eraseIndexBlock cfg (eraseCacheBlock s k) k).disk k <;>
    simp [h, eraseIndexBlock_cacheSize]

theorem eraseStep_index (cfg : Config) (s : State) (k : String) :
    (eraseStep cfg s k).1.index =
      if cfg.hasIndex then indexErase s.index k else s.index := by
  simp only [eraseStep]
  cases h : assocGet (eraseIndexBlock cfg (eraseCacheBlock s k) k).disk k <;>
    simp [h, eraseIndexBlock_index, eraseCacheBlock_index]

theorem eraseStep_pending (cfg : Config) (s : State) (k : String) :
    (eraseStep cfg s k).1.pending = s.pending := by
  simp only [eraseStep]
  cases h : assocGet (eraseIndexBlock cfg (eraseCacheBlock s k) k).disk k <;>
    simp [h, eraseIndexBlock_pending, eraseCacheBlock_pending]

theorem eraseStep_panicked (cfg : Config) (s : State) (k : String) :
    (eraseStep cfg s k).1.panicked = s.panicked := by
  simp only [eraseStep]
  cases h : assocGet (eraseIndexBlock cfg (eraseCacheBlock s k) k).disk k <;>
    simp [h, eraseIndexBlock_panicked, eraseCacheBlock_panicked]

theorem eraseStep_err_iff (cfg : Config) (s : State) (k : String) :
    (eraseStep cfg s k).2 = false ↔ assocGet s.disk k = none := by
  have hdisk : (eraseIndexBlock cfg (eraseCacheBlock s k) k).disk = s.disk := by
    rw [eraseIndexBlock_disk, eraseCacheBlock_disk]
  simp only [eraseStep, hdisk]
  cases h : assocGet s.disk k <;> simp [h]

theorem eraseStep_disk_of_err (cfg : Config) (s : State) (k : String)
    (herr : (eraseStep cfg s k).2 = false) :
    (eraseStep cfg s k).1.disk = s.disk := by
  have hd := (eraseStep_err_iff cfg s k).mp herr
  have hdisk : (eraseIndexBlock cfg (eraseCacheBlock s k) k).disk = s.disk := by
    rw [eraseIndexBlock_disk, eraseCacheBlock_disk]
  simp [eraseStep, hdisk, hd]

/-! ## Claim C1: cache accounting -/

/-- Claim C1 (refuted; it is a code bug).  The cache-accounting invariant fails on
the code: with `CacheSizeMax = 10`, after `Write "k" [1,2]`, two reads
of `"k"` that both miss, and both spawned lazy populations committing,
the tracked `cacheSize` is 4 although the cache holds exactly one entry
whose lengths sum to 2 — the second population attempt re-incremented
the counter for an already-cached key, because `cacheWithLock` executes
`d.cache[key] = val; d.cacheSize += valueSize` without a membership
check.  This is the failure mode the repository's own `TestIssue40`
describes as "the buggy code does not check if an entry already exists
in the map". -/
theorem c1_cache_accounting_violated :
    (run (cfgPlain 10) initState
        [Op.write "k" [1, 2], Op.read "k", Op.read "k",
         Op.commit 0, Op.commit 0]).cacheSize = 4 ∧
    cacheSum (run (cfgPlain 10) initState
        [Op.write "k" [1, 2], Op.read "k", Op.read "k",
         Op.commit 0, Op.commit 0]).cache = 2 ∧
    (run (cfgPlain 10) initState
        [Op.write "k" [1, 2], Op.read "k", Op.read "k",
         Op.commit 0, Op.commit 0]).panicked = false := by
  refine ⟨rfl, rfl, rfl⟩

/-! ## Claim C2: eviction for a fitting value -/

/-- Claim C2 (refuted; it is a code bug).  The panic branch of
`ensureCacheSpaceFor` ("still won't fit in the cache") is reachable
through the public operations for a value that fits: with
`CacheSizeMax = 1`, write a 1-byte value, read it (population caches it,
counter = 1), overwrite it (`write` deletes the cache entry without
decrementing the counter), read again — the population of the 1-byte
value finds `cacheSize = 1` with an empty cache, evicts nothing, and
panics although `valueSize = 1 ≤ CacheSizeMax`. -/
theorem c2_eviction_panic_reachable :
    (run (cfgPlain 1) initState
        [Op.write "k" [9], Op.read "k", Op.commit 0,
         Op.write "k" [9], Op.read "k", Op.commit 0]).panicked = true ∧
    (run (cfgPlain 1) initState
        [Op.write "k" [9], Op.read "k", Op.commit 0,
         Op.write "k" [9], Op.read "k", Op.commit 0]).cache = [] ∧
    (run (cfgPlain 1) initState
        [Op.write "k" [9], Op.read "k", Op.commit 0,
         Op.write "k" [9], Op.read "k", Op.commit 0]).cacheSize = 1 ∧
    ([9] : Bytes).length ≤ (cfgPlain 1).cacheSizeMax := by
  exact ⟨rfl, rfl, rfl, by decide⟩

/-! ## Claim C4: overwrite freshness -/

/-- Claim C4 (refuted; it is a code bug).  Overwrite freshness fails: write `v1 = [1]`
to `"k"`, read it (the lazy population task for `v1` is spawned), write
`v2 = [2]` (which deletes the — still absent — cache entry), then let
the spawned population commit: it blindly installs the pre-overwrite
bytes, and the subsequent read returns the stale `v1` from the cache
although the disk holds `v2`.  The repository's `TestStaleCache`
documents the intended behaviour (always read `v2`); the code's
population task never re-validates before committing. -/
theorem c4_stale_read_after_overwrite :
    readResult (cfgPlain 10)
      (run (cfgPlain 10) initState
        [Op.write "k" [1], Op.read "k", Op.write "k" [2], Op.commit 0])
      "k" = some [1] ∧
    assocGet (run (cfgPlain 10) initState
        [Op.write "k" [1], Op.read "k", Op.write "k" [2], Op.commit 0]).disk
      "k" = some [2] := by
  exact ⟨rfl, rfl⟩

/-! ## Eviction lemmas -/

theorem evict_size_le (max vs : Nat) :
    ∀ (c : List (String × Bytes)) (sz : Nat), (evict max vs c sz).2 ≤ sz := by
  intro c
  induction c with
  | nil => intro sz; simp [evict]
  | cons p rest ih =>
    intro sz
    by_cases h : sz + vs ≤ max
    · simp [evict, h]
    · simpa [evict, h] using le_trans (ih (sz - p.2.length)) (Nat.sub_le _ _)

theorem evict_mem (max vs : Nat) :
    ∀ (c : List (String × Bytes)) (sz : Nat) (p : String × Bytes),
      p ∈ (evict max vs c sz).1 → p ∈ c := by
  intro c
  induction c with
  | nil => intro sz p h; simpa [evict] using h
  | cons q rest ih =>
    intro sz p h
    by_cases hs : sz + vs ≤ max
    · simpa [evict, hs] using h
    · simp only [evict, hs, if_neg, not_false_iff] at h
      exact List.mem_cons_of_mem _ (ih _ _ h)

theorem cacheSum_cons (p : String × Bytes) (t : List (String × Bytes)) :
    cacheSum (p :: t) = p.2.length + cacheSum t := by
  simp [cacheSum]

theorem evict_safe (max vs : Nat) (hvs : vs ≤ max) :
    ∀ (c : List (String × Bytes)) (sz : Nat), sz = cacheSum c →
      (evict max vs c sz).2 + vs ≤ max ∧
      (evict max vs c sz).2 = cacheSum (evict max vs c sz).1 := by
  intro c
  induction c with
  | nil =>
    intro sz hsz
    simp only [cacheSum, List.map_nil, List.sum_nil] at hsz
    subst hsz
    exact ⟨by simpa [evict] using hvs, by simp [evict, cacheSum]⟩
  | cons p rest ih =>
    intro sz hsz
    by_cases h : sz + vs ≤ max
    · exact ⟨by simpa [evict, h] using h, by simpa [evict, h] using hsz⟩
    · have hrest : sz - p.2.length = cacheSum rest := by
        rw [cacheSum_cons] at hsz
        omega
      simpa [evict, h] using ih (sz - p.2.length) hrest

/-! ## Claim C3: cache bound -/

/-- Claim C3 (confirmed).  (i) In every reachable state the tracked cache
size is at most `CacheSizeMax` (this holds even though the counter can
drift above the true entry total, claims C1/C2): the only increment in
`cacheWithLock` is guarded by `cacheSize + valueSize ≤ CacheSizeMax`.
(ii) A caching attempt for a value larger than `CacheSizeMax` returns
the `ensureCacheSpaceFor` error before evicting or mutating anything.
(iii) The write and read of such a value still succeed and return the
written bytes. -/
theorem c3_cache_bound (cfg : Config) :
    (∀ s, Reachable cfg s → s.cacheSize ≤ cfg.cacheSizeMax) ∧
    (∀ s k val, val.length > cfg.cacheSizeMax →
      cacheWithLock cfg s k val = s) ∧
    (∀ s k v, v.length > cfg.cacheSizeMax → k.length ≠ 0 → RoundTrip cfg →
      (writeStep cfg s k v).2 = true ∧
      readResult cfg (writeStep cfg s k v).1 k = some v) := by
  refine ⟨?_, ?_, ?_⟩
  · -- size bound, by induction over the schedule
    have hstep : ∀ s op, s.cacheSize ≤ cfg.cacheSizeMax →
        (step cfg s op).cacheSize ≤ cfg.cacheSizeMax := by
      intro s op h
      by_cases hp : s.panicked
      · simpa [step, hp] using h
      · cases op with
        | write k v =>
          by_cases hk : k.length = 0
          · simpa [step, hp, writeStep, hk] using h
          · simpa [step, hp, writeStep, hk] using h
        | read k =>
          simp only [step, hp, if_neg, Bool.false_eq_true, not_false_iff, readStep]
          cases hc : assocGet s.cache k
          · cases hd : assocGet s.disk k <;> simpa using h
          · simpa using h
        | erase k =>
          simp only [step, hp, if_neg, Bool.false_eq_true, not_false_iff]
          calc (eraseStep cfg s k).1.cacheSize
              = (eraseCacheBlock s k).cacheSize := eraseStep_cacheSize cfg s k
            _ ≤ s.cacheSize := eraseCacheBlock_cacheSize_le s k
            _ ≤ cfg.cacheSizeMax := h
        | eraseAll => simp [step, hp, eraseAllStep]
        | commit i =>
          simp only [step, hp, if_neg, Bool.false_eq_true, not_false_iff, commitStep]
          cases ht : s.pending.get? i with
          | none => simpa using h
          | some t =>
            obtain ⟨k, val⟩ := t
            simp only [cacheWithLock]
            by_cases hbig : val.length > cfg.cacheSizeMax
            · simpa [hbig] using h
            · simp only [hbig, if_neg, not_false_iff]
              by_cases hfit :
                  (evict cfg.cacheSizeMax val.length s.cache s.cacheSize).2 +
                    val.length > cfg.cacheSizeMax
              · simpa [hfit] using
                  le_trans (evict_size_le cfg.cacheSizeMax val.length s.cache s.cacheSize) h
              · simp only [hfit, if_neg, not_false_iff]
                omega
    intro s hs
    obtain ⟨ops, hops⟩ := hs
    subst hops
    have : ∀ (ops : List Op) (s : State), s.cacheSize ≤ cfg.cacheSizeMax →
        (run cfg s ops).cacheSize ≤ cfg.cacheSizeMax := by
      intro ops
      induction ops with
      | nil => intro s h; simpa [run] using h
      | cons op rest ih => intro s h; exact ih _ (hstep s op h)
    exact this ops initState (Nat.zero_le _)
  · intro s k val h
    simp [cacheWithLock, h]
  · intro s k v _hbig hk hrt
    constructor
    · simp [writeStep, hk]
    · simp only [writeStep, hk, if_neg, not_false_iff, readResult,
        assocGet_assocDel_self, assocGet_assocPut_self]
      rw [hrt v]

/-- Witness for C3 at a concrete store: the fresh store respects the
bound, a 2-byte value is rejected by a 1-byte cache without mutation,
and its write/read round-trips. -/
theorem c3_cache_bound_witness :
    initState.cacheSize ≤ (cfgPlain 1).cacheSizeMax ∧
    cacheWithLock (cfgPlain 1) initState "k" [0, 0] = initState ∧
    (writeStep (cfgPlain 1) initState "k" [0, 0]).2 = true ∧
    readResult (cfgPlain 1) (writeStep (cfgPlain 1) initState "k" [0, 0]).1 "k" =
      some [0, 0] := by
  obtain ⟨h1, h2, h3⟩ := c3_cache_bound (cfgPlain 1)
  have hb := h3 initState "k" [0, 0] (by decide) (by decide) (fun x => rfl)
  exact ⟨h1 initState ⟨[], rfl⟩, h2 initState "k" [0, 0] (by decide), hb.1, hb.2⟩

/-! ## Claim C7: EraseAll resets the store -/

/-- Claim C7 counterexample (the claim as stated fails).  With an index
configured, write key `"a"` and call `EraseAll`: the cache map is empty
and the counter zero, but the index still contains `"a"` —
`Diskv.EraseAll` never touches `d.Index`. -/
theorem c7_eraseAll_leaves_index :
    (run (cfgIndexed 10) initState [Op.write "a" [0], Op.eraseAll]).index = ["a"] ∧
    (run (cfgIndexed 10) initState [Op.write "a" [0], Op.eraseAll]).cache = [] ∧
    (run (cfgIndexed 10) initState [Op.write "a" [0], Op.eraseAll]).cacheSize = 0 ∧
    (run (cfgIndexed 10) initState [Op.write "a" [0], Op.eraseAll]).disk = [] ∧
    (["a"] : List String) ≠ [] := by
  exact ⟨rfl, rfl, rfl, rfl, by decide⟩

/-- Claim C7 amended: after `Diskv.EraseAll` the cache map is empty, the
counter is zero and the disk is cleared, but a configured Index keeps
exactly its previous keys; only the older generation's
`OrderedStore.Flush` additionally reinitializes the order index to
empty. -/
theorem c7_eraseAll_amended :
    (∀ s : State, (eraseAllStep s).cache = [] ∧ (eraseAllStep s).cacheSize = 0 ∧
      (eraseAllStep s).disk = [] ∧ (eraseAllStep s).index = s.index) ∧
    (∀ st : OrderedStoreState, (OrderedStore.Flush st).cache = [] ∧
      (OrderedStore.Flush st).cacheSize = 0 ∧ (OrderedStore.Flush st).disk = [] ∧
      (OrderedStore.Flush st).index = []) := by
  exact ⟨fun s => ⟨rfl, rfl, rfl, rfl⟩, fun st => ⟨rfl, rfl, rfl, rfl⟩⟩

/-! ## Claim C8: erase atomicity on failure -/

/-- Claim C8 counterexample (the claim as stated fails).  With an index
configured, `[write "k"; EraseAll]` reaches a state whose index still
holds `"k"` (claim C7) while the disk is empty; the public `Erase "k"`
on that state returns an error (`os.Stat` fails, the file is absent)
and yet has removed `"k"` from the index, because `Erase` deletes from
cache and index before checking the disk. -/
theorem c8_erase_error_mutates :
    (eraseStep (cfgIndexed 10)
      (run (cfgIndexed 10) initState [Op.write "k" [5], Op.eraseAll]) "k").2 = false ∧
    (run (cfgIndexed 10) initState [Op.write "k" [5], Op.eraseAll]).index = ["k"] ∧
    (eraseStep (cfgIndexed 10)
      (run (cfgIndexed 10) initState [Op.write "k" [5], Op.eraseAll]) "k").1.index = [] := by
  exact ⟨rfl, rfl, rfl⟩

/-- Claim C8 amended: when `erase(key)` returns an error, the key was
absent from disk, the disk and every other key's cache entry and index
membership are untouched, no population task or panic state changes, and
the only possible mutations are the removal of the key itself from the
cache (decrementing the counter by exactly the removed entry's length)
and from the index; in particular, in any state where the erased key is
tracked by neither cache nor index — which includes every state
sequentially reachable without `EraseAll`-orphaned index entries or
stale population commits — a failed erase mutates nothing at all. -/
theorem c8_erase_error_amended (cfg : Config) :
    (∀ s k, (eraseStep cfg s k).2 = false →
      (eraseStep cfg s k).1.disk = s.disk ∧
      assocGet s.disk k = none ∧
      (∀ k', k' ≠ k →
        assocGet (eraseStep cfg s k).1.cache k' = assocGet s.cache k') ∧
      (∀ k', k' ≠ k →
        (k' ∈ (eraseStep cfg s k).1.index ↔ k' ∈ s.index)) ∧
      (eraseStep cfg s k).1.pending = s.pending ∧
      (eraseStep cfg s k).1.panicked = s.panicked ∧
      (∀ val, assocGet s.cache k = some val →
        (eraseStep cfg s k).1.cacheSize = s.cacheSize - val.length) ∧
      (assocGet s.cache k = none →
        (eraseStep cfg s k).1.cacheSize = s.cacheSize)) ∧
    (∀ s k, assocGet s.cache k = none → k ∉ s.index →
      (eraseStep cfg s k).2 = false → (eraseStep cfg s k).1 = s) := by
  constructor
  · intro s k herr
    have hd := (eraseStep_err_iff cfg s k).mp herr
    refine ⟨eraseStep_disk_of_err cfg s k herr, hd, ?_, ?_,
      eraseStep_pending cfg s k, eraseStep_panicked cfg s k, ?_, ?_⟩
    · intro k' hk'
      rw [eraseStep_cache]
      cases hc : assocGet s.cache k with
      | none => simp [eraseCacheBlock, hc]
      | some v => simp [eraseCacheBlock, hc, assocGet_assocDel_ne _ hk']
    · intro k' hk'
      rw [eraseStep_index]
      cases hh : cfg.hasIndex with
      | true => simp [mem_indexErase, hk']
      | false => simp
    · intro val hval
      rw [eraseStep_cacheSize]
      simp [eraseCacheBlock, hval]
    · intro hnone
      rw [eraseStep_cacheSize]
      simp [eraseCacheBlock, hnone]
  · intro s k hc hidx herr
    have h1 : eraseCacheBlock s k = s := by simp [eraseCacheBlock, hc]
    have h2 : eraseIndexBlock cfg s k = s := by
      unfold eraseIndexBlock
      split
      · rw [indexErase_of_not_mem hidx]
      · rfl
    have hd := (eraseStep_err_iff cfg s k).mp herr
    simp [eraseStep, h1, h2, hd]

/-- Witness for the amended C8 at a concrete input: erasing an absent
key from the fresh store errors and leaves the state untouched. -/
theorem c8_erase_error_amended_witness :
    (eraseStep (cfgIndexed 10) initState "k").1 = initState ∧
    assocGet initState.disk "k" = none := by
  obtain ⟨h1, h2⟩ := c8_erase_error_amended (cfgIndexed 10)
  refine ⟨h2 initState "k" rfl (by simp [initState]) rfl, ?_⟩
  exact (h1 initState "k" rfl).2.1

/-! ## Claim C10: writes never warm the cache -/

/-- Claim C10 (confirmed).  Immediately after a successful `write` (the
common implementation of `Write`, `WriteAndSync` and `WriteStream`) the
key is absent from the cache; `write`, `Read`'s synchronous part,
`Erase` and `EraseAll` never add a cache key; a committed population
task inserts at most the task's own key; and population tasks are
spawned only by `Read` on a cache miss whose file is on disk —
`d.cache[key] = val` in `cacheWithLock` is the sole insertion point and
is fed exclusively by `Read` ("cache only on read"). -/
theorem c10_writes_never_warm_cache (cfg : Config) :
    (∀ s k v, k.length ≠ 0 →
      (writeStep cfg s k v).2 = true ∧
      assocGet (writeStep cfg s k v).1.cache k = none) ∧
    (∀ s k v k', k' ∈ assocKeys (writeStep cfg s k v).1.cache →
      k' ∈ assocKeys s.cache) ∧
    (∀ s k, (readStep s k).cache = s.cache) ∧
    (∀ s k k', k' ∈ assocKeys (eraseStep cfg s k).1.cache →
      k' ∈ assocKeys s.cache) ∧
    (∀ s k', k' ∈ assocKeys (eraseAllStep s).cache → k' ∈ assocKeys s.cache) ∧
    (∀ s i k', k' ∈ assocKeys (commitStep cfg s i).cache →
      k' ∈ assocKeys s.cache ∨ ∃ val, s.pending.get? i = some (k', val)) ∧
    (∀ s k t, t ∈ (readStep s k).pending →
      t ∈ s.pending ∨
        (t.1 = k ∧ assocGet s.disk k = some t.2 ∧ assocGet s.cache k = none)) ∧
    (∀ s k v, (writeStep cfg s k v).1.pending = s.pending) ∧
    (∀ s k, (eraseStep cfg s k).1.pending = s.pending) ∧
    (∀ s, (eraseAllStep s).pending = s.pending) := by
  refine ⟨?_, ?_, ?_, ?_, ?_, ?_, ?_, ?_, ?_, fun s => rfl⟩
  · intro s k v hk
    refine ⟨by simp [writeStep, hk], ?_⟩
    simp only [writeStep, hk, if_neg, not_false_iff]
    exact assocGet_assocDel_self _ _
  · intro s k v k' h
    by_cases hk : k.length = 0
    · simpa [writeStep, hk] using h
    · simp only [writeStep, hk, if_neg, not_false_iff] at h
      exact mem_assocKeys_assocDel h
  · intro s k
    cases hc : assocGet s.cache k
    · cases hd : assocGet s.disk k <;> simp [readStep, hc, hd]
    · simp [readStep, hc]
  · intro s k k' h
    rw [eraseStep_cache] at h
    cases hc : assocGet s.cache k with
    | none => simpa [eraseCacheBlock, hc] using h
    | some v =>
      rw [show (eraseCacheBlock s k).cache = assocDel s.cache k from by
        simp [eraseCacheBlock, hc]] at h
      exact mem_assocKeys_assocDel h
  · intro s k' h
    simpa [eraseAllStep, assocKeys] using h
  · intro s i k' h
    cases ht : s.pending.get? i with
    | none =>
      simp only [commitStep, ht] at h
      exact Or.inl h
    | some t =>
      obtain ⟨k, val⟩ := t
      simp only [commitStep, ht, cacheWithLock] at h
      by_cases hbig : val.length > cfg.cacheSizeMax
      · simp only [hbig, if_pos] at h
        exact Or.inl h
      · simp only [hbig, if_neg, not_false_iff] at h
        by_cases hfit : (evict cfg.cacheSizeMax val.length s.cache s.cacheSize).2 +
            val.length > cfg.cacheSizeMax
        · simp only [hfit, if_pos] at h
          exact Or.inl (by
            simp only [assocKeys, List.mem_map] at h ⊢
            obtain ⟨p, hp, hpk⟩ := h
            exact ⟨p, evict_mem _ _ _ _ _ hp, hpk⟩)
        · simp only [hfit, if_neg, not_false_iff] at h
          rcases mem_assocKeys_assocPut h with h' | h'
          · subst h'
            exact Or.inr ⟨val, rfl⟩
          · exact Or.inl (by
              simp only [assocKeys, List.mem_map] at h' ⊢
              obtain ⟨p, hp, hpk⟩ := h'
              exact ⟨p, evict_mem _ _ _ _ _ hp, hpk⟩)
  · intro s k t h
    cases hc : assocGet s.cache k with
    | none =>
      cases hd : assocGet s.disk k with
      | none => exact Or.inl (by simpa [readStep, hc, hd] using h)
      | some val =>
        simp only [readStep, hc, hd, List.mem_append, List.mem_singleton] at h
        rcases h with h | h
        · exact Or.inl h
        · subst h
          exact Or.inr ⟨rfl, rfl, rfl⟩
    | some v => exact Or.inl (by simpa [readStep, hc] using h)
  · intro s k v
    by_cases hk : k.length = 0 <;> simp [writeStep, hk]
  · intro s k
    exact eraseStep_pending cfg s k

/-- Witness for C10: after writing `"k"` to the fresh store, `"k"` is
not cached. -/
theorem c10_writes_never_warm_cache_witness :
    (writeStep (cfgPlain 10) initState "k" [1]).2 = true ∧
    assocGet (writeStep (cfgPlain 10) initState "k" [1]).1.cache "k" = none := by
  exact (c10_writes_never_warm_cache (cfgPlain 10)).1 initState "k" [1] (by decide)

/-! ## Claim C5: round trip -/

theorem assocDel_of_assocGet_none {l : List (String × Bytes)} {k : String}
    (h : assocGet l k = none) : assocDel l k = l := by
  induction l with
  | nil => rfl
  | cons p t ih =>
    by_cases hp : p.1 = k
    · simp [assocGet, hp] at h
    · simp only [assocGet, hp, if_neg, not_false_iff] at h
      simp [assocDel, hp, ih h]

/-- Claim C5 (confirmed).  For a non-empty key `k` that has no cache entry
and no in-flight population ("no intervening mutation of k") in an
accounting-consistent state, and a codec satisfying the round-trip
identity: after a successful `write k v`, the immediate `Read` returns
exactly `v` (cache-miss path); letting that read's spawned population
commit does not panic, and the next `Read` still returns exactly `v`
(the cache-hit path whenever the stored bytes fit in the cache, in which
case the key is indeed cached). -/
theorem c5_round_trip (cfg : Config) (s : State) (k : String) (v : Bytes)
    (hrt : RoundTrip cfg) (hk : k.length ≠ 0) (hpend : s.pending = [])
    (hacc : s.cacheSize = cacheSum s.cache)
    (hkc : assocGet s.cache k = none) :
    (writeStep cfg s k v).2 = true ∧
    readResult cfg (writeStep cfg s k v).1 k = some v ∧
    (commitStep cfg (readStep (writeStep cfg s k v).1 k) 0).panicked = s.panicked ∧
    readResult cfg (commitStep cfg (readStep (writeStep cfg s k v).1 k) 0) k = some v ∧
    ((maybeCompress cfg v).length ≤ cfg.cacheSizeMax →
      assocGet (commitStep cfg (readStep (writeStep cfg s k v).1 k) 0).cache k =
        some (maybeCompress cfg v)) := by
  have hdel : assocDel s.cache k = s.cache := assocDel_of_assocGet_none hkc
  have hw : (writeStep cfg s k v).1 =
      { s with disk := assocPut s.disk k (maybeCompress cfg v),
               index := if cfg.hasIndex then indexInsert s.index k else s.index,
               cache := s.cache } := by
    simp [writeStep, hk, hdel]
  have hw2 : (writeStep cfg s k v).2 = true := by simp [writeStep, hk]
  have hr1 : readResult cfg (writeStep cfg s k v).1 k = some v := by
    rw [hw]
    simp [readResult, hkc, assocGet_assocPut_self, hrt v]
  have hs2 : readStep (writeStep cfg s k v).1 k =
      { s with disk := assocPut s.disk k (maybeCompress cfg v),
               index := if cfg.hasIndex then indexInsert s.index k else s.index,
               cache := s.cache,
               pending := [(k, maybeCompress cfg v)] } := by
    rw [hw]
    simp [readStep, hkc, assocGet_assocPut_self, hpend]
  have hc3 : commitStep cfg (readStep (writeStep cfg s k v).1 k) 0 =
      cacheWithLock cfg
        { s with disk := assocPut s.disk k (maybeCompress cfg v),
                 index := if cfg.hasIndex then indexInsert s.index k else s.index,
                 cache := s.cache,
                 pending := [] }
        k (maybeCompress cfg v) := by
    rw [hs2]
    simp [commitStep, List.eraseIdx]
  refine ⟨hw2, hr1, ?_, ?_, ?_⟩ <;> rw [hc3]
  · -- the population does not panic
    by_cases hbig : (maybeCompress cfg v).length > cfg.cacheSizeMax
    · simp [cacheWithLock, hbig]
    · obtain ⟨hsafe, _⟩ :=
        evict_safe cfg.cacheSizeMax (maybeCompress cfg v).length
          (le_of_not_lt hbig) s.cache s.cacheSize hacc
      have hnp : ¬ ((evict cfg.cacheSizeMax (maybeCompress cfg v).length
          s.cache s.cacheSize).2 + (maybeCompress cfg v).length >
          cfg.cacheSizeMax) := not_lt.mpr hsafe
      simp [cacheWithLock, hbig, hnp]
  · -- the later read returns v
    by_cases hbig : (maybeCompress cfg v).length > cfg.cacheSizeMax
    · simp [cacheWithLock, hbig, readResult, hkc, assocGet_assocPut_self, hrt v]
    · have hnp : ¬ ((evict cfg.cacheSizeMax (maybeCompress cfg v).length
          s.cache s.cacheSize).2 + (maybeCompress cfg v).length >
          cfg.cacheSizeMax) :=
        not_lt.mpr (evict_safe cfg.cacheSizeMax (maybeCompress cfg v).length
          (le_of_not_lt hbig) s.cache s.cacheSize hacc).1
      simp [cacheWithLock, hbig, hnp, readResult, assocGet_assocPut_self, hrt v]
  · -- and when the stored bytes fit, the key is now cached
    intro hle
    have hbig : ¬ ((maybeCompress cfg v).length > cfg.cacheSizeMax) :=
      not_lt.mpr hle
    have hnp : ¬ ((evict cfg.cacheSizeMax (maybeCompress cfg v).length
        s.cache s.cacheSize).2 + (maybeCompress cfg v).length >
        cfg.cacheSizeMax) :=
      not_lt.mpr (evict_safe cfg.cacheSizeMax (maybeCompress cfg v).length
        hle s.cache s.cacheSize hacc).1
    simp [cacheWithLock, hbig, hnp, assocGet_assocPut_self]

/-- Witness for C5 at a concrete store: writing `[1,2,3]` to `"k"` in a
fresh store with a 10-byte cache and no codec, then reading, returns
`[1,2,3]` before and after the lazy population runs, and caches it. -/
theorem c5_round_trip_witness :
    (writeStep (cfgPlain 10) initState "k" [1, 2, 3]).2 = true ∧
    readResult (cfgPlain 10) (writeStep (cfgPlain 10) initState "k" [1, 2, 3]).1 "k" =
      some [1, 2, 3] ∧
    (commitStep (cfgPlain 10)
      (readStep (writeStep (cfgPlain 10) initState "k" [1, 2, 3]).1 "k") 0).panicked =
      initState.panicked ∧
    readResult (cfgPlain 10)
      (commitStep (cfgPlain 10)
        (readStep (writeStep (cfgPlain 10) initState "k" [1, 2, 3]).1 "k") 0) "k" =
      some [1, 2, 3] ∧
    ((maybeCompress (cfgPlain 10) [1, 2, 3]).length ≤ (cfgPlain 10).cacheSizeMax →
      assocGet (commitStep (cfgPlain 10)
        (readStep (writeStep (cfgPlain 10) initState "k" [1, 2, 3]).1 "k") 0).cache "k" =
        some (maybeCompress (cfgPlain 10) [1, 2, 3])) := by
  exact c5_round_trip (cfgPlain 10) initState "k" [1, 2, 3]
    (fun x => rfl) (by decide) rfl rfl rfl

/-! ## Claim C6: pagination of keysFrom -/

/-- A concrete caller-supplied comparator (order keys by length),
used to instantiate the `LessFunction`/`llrb.LessFunc` parameter. -/
def lenLess (a b : String) : Bool := decide (a.length < b.length)

/-- Claim C6 counterexample (the claim as stated fails).  In the sorted
index `["a", "bb"]`, the key `"bb"` (the maximum) is present, yet
`Keys("bb", 1)`/`KeysFrom("bb", 1)` return `["bb"]` — the first result
is `startKey` itself, which the claim says never happens: the
"append `Max()`" hack fires because `IterRange(Max, Max)` is empty,
while the spec-side pagination returns no keys. -/
theorem c6_keysFrom_counterexample :
    llrbKeys lenLess ["a", "bb"] "bb" 1 = ["bb"] ∧
    keysFrom lenLess ["a", "bb"] "bb" 1 = ["bb"] ∧
    keysFromSpec lenLess ["a", "bb"] "bb" 1 = [] ∧
    "bb" ∈ (["a", "bb"] : List String) ∧
    List.Pairwise (fun a b => lenLess a b = true) ["a", "bb"] := by
  exact ⟨rfl, rfl, rfl, by decide, by decide⟩

/-- Assembling the tail of the `Keys` loop: sending `take n` of a list
and appending the maximum when the channel was exhausted early is the
same as `take n` of the list with the maximum put back. -/
theorem llrbKeys_assemble (P : List String) (a : String) (n : Nat) :
    (if ((P.take n).length < n) then P.take n ++ [a] else P.take n) =
      (P ++ [a]).take n := by
  by_cases h : P.length < n
  · rw [List.take_of_length_le (le_of_lt h), if_pos h,
      List.take_of_length_le
        (by simp only [List.length_append, List.length_cons, List.length_nil]; omega)]
  · have hn : n ≤ P.length := le_of_not_lt h
    have hlen : ¬ ((P.take n).length < n) := by
      rw [List.length_take]
      omega
    rw [List.take_append_of_le_length hn, if_neg hlen]

/-- Claim C6 amended: `LLRBIndex.Keys` (and `OrderedStore.KeysFrom`, which
computes the same function) paginates exactly as the spec says — start
at the minimum inclusively when `startKey` is empty or absent, else at
the immediate successor of `startKey`, returning fewer than `count`
keys only on exhaustion — except in one case the counterexample forces:
when `startKey` is the maximum key of the index (no key follows it) and
`count ≥ 1`, the result is `[startKey]`, i.e. `startKey` itself is
returned as the first result. -/
theorem c6_keysFrom_amended (less : String → String → Bool)
    (L : List String) (f : String) (n : Nat)
    (hasym : ∀ a b, less a b = true → less b a = false)
    (hL : List.Pairwise (fun a b => less a b = true) L) :
    llrbKeys less L f n =
      (if f.length ≠ 0 ∧ f ∈ L ∧ L.filter (fun e => less f e) = [] ∧ 1 ≤ n
       then [f]
       else keysFromSpec less L f n) ∧
    keysFrom less L f n = llrbKeys less L f n := by
  have hirr : ∀ a, less a a = false := by
    intro a
    cases h : less a a
    · rfl
    · exact absurd (hasym a a h) (by rw [h]; simp)
  refine ⟨?_, rfl⟩
  cases L with
  | nil =>
    simp [llrbKeys, keysFromSpec]
  | cons x xs =>
    by_cases hf : f.length = 0 ∨ ¬ f ∈ (x :: xs)
    · -- start at the minimum, no skip
      have hcond : ¬ (f.length ≠ 0 ∧ f ∈ x :: xs ∧
          (x :: xs).filter (fun e => less f e) = [] ∧ 1 ≤ n) := by
        rcases hf with hf | hf
        · exact fun hc => hc.1 hf
        · exact fun hc => hf hc.2.1
      rw [if_neg hcond]
      have hspec : keysFromSpec less (x :: xs) f n = (x :: xs).take n := by
        rw [keysFromSpec, if_pos hf]
      rw [hspec]
      have hc0 : iterRange less (x :: xs) x ((x :: xs).getLast?.getD "") =
          (x :: xs).dropLast := by
        rcases List.eq_nil_or_concat xs with hxs | ⟨M, a, hxs⟩
        · subst hxs
          simp [iterRange, hirr]
        · rw [List.concat_eq_append] at hxs
          subst hxs
          have hMax : ((x :: (M ++ [a])).getLast?.getD "") = a := by
            rw [show x :: (M ++ [a]) = (x :: M) ++ [a] by simp,
              List.getLast?_concat]
            rfl
          rw [hMax, show x :: (M ++ [a]) = (x :: M) ++ [a] by simp,
            List.dropLast_concat]
          rw [List.pairwise_cons] at hL
          obtain ⟨hxall, hMa⟩ := hL
          rw [List.pairwise_append] at hMa
          rw [iterRange, List.filter_append]
          have h1 : List.filter (fun e => !less e x && less e a) ((x :: M)) =
              x :: M := by
            rw [List.filter_eq_self]
            intro e he
            rcases List.mem_cons.mp he with he | he
            · rw [he]
              simp [hirr, hxall a (by simp : a ∈ M ++ [a])]
            · simp [hasym x e (hxall e (List.mem_append_left _ he)),
                hMa.2.2 e he a (by simp : a ∈ [a])]
          have h2 : List.filter (fun e => !less e x && less e a) [a] = [] := by
            simp [List.filter, hirr a]
          rw [h1, h2, List.append_nil]
      rw [llrbKeys, if_neg (by simp)]
      simp only [hf, if_pos, List.head?_cons, Option.getD_some]
      rw [hc0]
      have := llrbKeys_assemble ((x :: xs).dropLast) ((x :: xs).getLast (by simp)) n
      rw [List.dropLast_append_getLast (by simp : x :: xs ≠ [])] at this
      rw [show ((x :: xs).getLast?.getD "") = (x :: xs).getLast (by simp) from ?_]
      · exact this
      · rw [List.getLast?_eq_getLast _ (by simp)]
        rfl
    · -- startKey present and non-empty: skip the first yielded key
      push_neg at hf
      obtain ⟨hflen, hfmem⟩ := hf
      obtain ⟨l₁, l₂, hsplit⟩ := List.append_of_mem hfmem
      rw [hsplit] at hL ⊢
      rw [List.pairwise_append] at hL
      obtain ⟨hl₁, hfl₂p, h12⟩ := hL
      rw [List.pairwise_cons] at hfl₂p
      obtain ⟨hfl₂, hl₂⟩ := hfl₂p
      have hstart : (if f.length = 0 ∨ ¬ f ∈ l₁ ++ f :: l₂ then
          ((l₁ ++ f :: l₂).head?.getD "", false) else (f, true)) = (f, true) := by
        rw [if_neg]
        push_neg
        exact ⟨hflen, by simp⟩
      have hfilterl₁ : ∀ (hi : String), List.filter (fun e => !less e f && less e hi) l₁ = [] := by
        intro hi
        rw [List.filter_eq_nil]
        intro e he
        rw [h12 e he f (by simp)]
        simp
      have hTl₁ : List.filter (fun e => less f e) l₁ = [] := by
        rw [List.filter_eq_nil]
        intro e he
        rw [hasym e f (h12 e he f (by simp))]
        simp
      rcases List.eq_nil_or_concat l₂ with hl₂e | ⟨M, a, hl₂e⟩
      · -- f is the maximum key
        subst hl₂e
        have hMax : ((l₁ ++ [f]).getLast?.getD "") = f := by
          rw [List.getLast?_concat]
          rfl
        have hT : List.filter (fun e => less f e) (l₁ ++ [f]) = [] := by
          rw [List.filter_append, hTl₁]
          simp [List.filter, hirr f]
        have hc0 : iterRange less (l₁ ++ [f]) f f = [] := by
          rw [iterRange, List.filter_append, hfilterl₁ f]
          simp [List.filter, hirr f]
        rw [llrbKeys, if_neg (by simp)]
        simp only [hstart, hMax, hc0]
        simp only [if_true, List.drop_nil, List.take_nil, List.length_nil,
          List.nil_append]
        by_cases hn : 1 ≤ n
        · rw [if_pos (show (0 : ℕ) < n by omega),
            if_pos ⟨hflen, by simp, hT, hn⟩]
        · rw [if_neg (show ¬ (0 : ℕ) < n by omega),
            if_neg (fun hc => hn hc.2.2.2)]
          rw [keysFromSpec, if_neg (by push_neg; exact ⟨hflen, by simp⟩), hT]
          simp
      · -- f has a successor
        rw [List.concat_eq_append] at hl₂e
        subst hl₂e
        have hassoc : l₁ ++ f :: (M ++ [a]) = (l₁ ++ f :: M) ++ [a] := by simp
        have hMax : ((l₁ ++ f :: (M ++ [a])).getLast?.getD "") = a := by
          rw [hassoc, List.getLast?_concat]
          rfl
        have hfa : less f a = true := hfl₂ a (by simp)
        have hMall : ∀ e ∈ M, less e a = true := by
          intro e he
          rw [List.pairwise_append] at hl₂
          exact hl₂.2.2 e he a (by simp)
        have hc0 : iterRange less (l₁ ++ f :: (M ++ [a])) f a = f :: M := by
          rw [iterRange, List.filter_append, hfilterl₁ a, List.nil_append]
          rw [show (f :: (M ++ [a])) = (f :: M) ++ [a] by simp, List.filter_append]
          have h1 : List.filter (fun e => !less e f && less e a) (f :: M) =
              f :: M := by
            rw [List.filter_eq_self]
            intro e he
            rcases List.mem_cons.mp he with he | he
            · rw [he]
              simp [hirr, hfa]
            · simp [hasym f e (hfl₂ e (List.mem_append_left _ he)), hMall e he]
          have h2 : List.filter (fun e => !less e f && less e a) [a] = [] := by
            simp [List.filter, hirr a]
          rw [h1, h2, List.append_nil]
        have hT : List.filter (fun e => less f e) (l₁ ++ f :: (M ++ [a])) =
            M ++ [a] := by
          rw [List.filter_append, hTl₁, List.nil_append]
          rw [show (f :: (M ++ [a])) = [f] ++ (M ++ [a]) by simp, List.filter_append]
          have h1 : List.filter (fun e => less f e) [f] = [] := by
            simp [List.filter, hirr f]
          have h2 : List.filter (fun e => less f e) (M ++ [a]) = M ++ [a] := by
            rw [List.filter_eq_self]
            intro e he
            exact hfl₂ e he
          rw [h1, h2, List.nil_append]
        rw [llrbKeys, if_neg (by simp)]
        simp only [hstart, hMax, hc0]
        simp only [if_true, List.drop_succ_cons, List.drop_zero]
        have hcond : ¬ (f.length ≠ 0 ∧ f ∈ l₁ ++ f :: (M ++ [a]) ∧
            List.filter (fun e => less f e) (l₁ ++ f :: (M ++ [a])) = [] ∧
            1 ≤ n) := by
          rw [hT]
          simp
        rw [if_neg hcond]
        have hspec0 : keysFromSpec less (l₁ ++ f :: (M ++ [a])) f n =
            (List.filter (fun e => less f e) (l₁ ++ f :: (M ++ [a]))).take n := by
          rw [keysFromSpec, if_neg (by push_neg; exact ⟨hflen, by simp⟩)]
        rw [hspec0, hT]
        exact llrbKeys_assemble M a n

/-- Witness for the amended C6 at a concrete sorted index: pagination
from the (present, non-maximal) key `"a"` yields its successor. -/
theorem c6_keysFrom_amended_witness :
    llrbKeys lenLess ["a", "bb", "ccc"] "a" 5 =
      (if ("a" : String).length ≠ 0 ∧ "a" ∈ ["a", "bb", "ccc"] ∧
          (["a", "bb", "ccc"] : List String).filter (fun e => lenLess "a" e) = [] ∧
          1 ≤ 5
       then ["a"]
       else keysFromSpec lenLess ["a", "bb", "ccc"] "a" 5) ∧
    keysFrom lenLess ["a", "bb", "ccc"] "a" 5 =
      llrbKeys lenLess ["a", "bb", "ccc"] "a" 5 := by
  exact c6_keysFrom_amended lenLess ["a", "bb", "ccc"] "a" 5
    (by intro a b h; revert h; simp [lenLess]; omega) (by decide)

/-! ## Claim C9: directory pruning -/

theorem take_ne_take_of_ne {pl : List String} {i j : Nat} (hij : i ≠ j)
    (hi : i ≤ pl.length) (hj : j ≤ pl.length) : pl.take i ≠ pl.take j := by
  intro he
  have := congrArg List.length he
  simp only [List.length_take] at this
  omega

theorem hasEntries_true_iff (fs : FS) (d : List String) :
    hasEntries fs d = true ↔
      (∃ p ∈ fs.files, p.1 = d) ∨ (∃ p ∈ fs.dirs, p ≠ [] ∧ p.dropLast = d) := by
  simp [hasEntries, List.any_eq_true]

theorem hasEntries_false_iff (fs : FS) (d : List String) :
    hasEntries fs d = false ↔
      (∀ p ∈ fs.files, p.1 ≠ d) ∧ (∀ p ∈ fs.dirs, p ≠ [] → p.dropLast ≠ d) := by
  rw [← Bool.not_eq_true, hasEntries_true_iff]
  push_neg
  constructor
  · rintro ⟨h1, h2⟩
    exact ⟨h1, fun p hp hne => (h2 p hp) hne⟩
  · rintro ⟨h1, h2⟩
    exact ⟨h1, fun p hp hne => (h2 p hp) hne⟩

theorem pruneFrom_files (pl : List String) :
    ∀ (m : Nat) (fs : FS), (pruneFrom pl m fs).files = fs.files := by
  intro m
  induction m with
  | zero => intro fs; rfl
  | succ m ih =>
    intro fs
    rw [pruneFrom]
    by_cases h1 : pl.take (m + 1) ∈ fs.dirs
    · rw [if_pos h1]
      by_cases h2 : hasEntries fs (pl.take (m + 1))
      · rw [if_pos h2]
      · rw [if_neg h2]
        exact ih _
    · rw [if_neg h1]

theorem pruneFrom_dirs_subset (pl : List String) :
    ∀ (m : Nat) (fs : FS) (d : List String),
      d ∈ (pruneFrom pl m fs).dirs → d ∈ fs.dirs := by
  intro m
  induction m with
  | zero => intro fs d h; exact h
  | succ m ih =>
    intro fs d h
    rw [pruneFrom] at h
    by_cases h1 : pl.take (m + 1) ∈ fs.dirs
    · rw [if_pos h1] at h
      by_cases h2 : hasEntries fs (pl.take (m + 1))
      · rw [if_pos h2] at h
        exact h
      · rw [if_neg h2] at h
        exact List.mem_of_mem_erase (ih _ d h)
    · rw [if_neg h1] at h
      exact h

theorem pruneFrom_frame (pl : List String) :
    ∀ (m : Nat) (fs : FS) (d : List String),
      (∀ j, 1 ≤ j → j ≤ m → d ≠ pl.take j) →
      (d ∈ fs.dirs ↔ d ∈ (pruneFrom pl m fs).dirs) := by
  intro m
  induction m with
  | zero => intro fs d _; exact Iff.rfl
  | succ m ih =>
    intro fs d hd
    rw [pruneFrom]
    by_cases h1 : pl.take (m + 1) ∈ fs.dirs
    · rw [if_pos h1]
      by_cases h2 : hasEntries fs (pl.take (m + 1))
      · rw [if_pos h2]
      · rw [if_neg h2]
        have hne : d ≠ pl.take (m + 1) := hd (m + 1) (by omega) (le_refl _)
        rw [← ih _ d (fun j hj1 hj2 => hd j hj1 (by omega))]
        exact (List.mem_erase_of_ne hne).symm
    · rw [if_neg h1]

theorem pruneFrom_removed_deeper (pl : List String) :
    ∀ (m : Nat) (fs : FS), m ≤ pl.length → fs.dirs.Nodup →
      ∀ j, 1 ≤ j → j ≤ m → pl.take j ∈ fs.dirs →
        pl.take j ∉ (pruneFrom pl m fs).dirs →
        ∀ m', j ≤ m' → m' ≤ m →
          pl.take m' ∈ fs.dirs ∧ pl.take m' ∉ (pruneFrom pl m fs).dirs := by
  intro m
  induction m with
  | zero =>
    intro fs _ _ j hj1 hj2 _ _
    omega
  | succ m ih =>
    intro fs hm hnd j hj1 hj2 hjin hjout m' hm'1 hm'2
    rw [pruneFrom] at hjout ⊢
    by_cases h1 : pl.take (m + 1) ∈ fs.dirs
    · rw [if_pos h1] at hjout ⊢
      by_cases h2 : hasEntries fs (pl.take (m + 1))
      · rw [if_pos h2] at hjout ⊢
        exact absurd hjin hjout
      · rw [if_neg h2] at hjout ⊢
        have hdd : pl.take (m + 1) ∉ fs.dirs.erase (pl.take (m + 1)) := by
          intro hmem
          exact absurd ((hnd.mem_erase_iff.mp hmem).1) (by simp)
        have hdout : pl.take (m + 1) ∉
            (pruneFrom pl m { fs with dirs := fs.dirs.erase (pl.take (m + 1)) }).dirs :=
          fun hmem => hdd (pruneFrom_dirs_subset pl m _ _ hmem)
        by_cases hjm : j = m + 1
        · -- the erased level itself: only m' = m+1 is in range
          have hm'eq : m' = m + 1 := by omega
          subst hm'eq
          exact ⟨h1, hdout⟩
        · have hj2' : j ≤ m := by omega
          have hjne : pl.take j ≠ pl.take (m + 1) :=
            take_ne_take_of_ne (by omega) (by omega) hm
          have hjin' : pl.take j ∈ fs.dirs.erase (pl.take (m + 1)) :=
            (List.mem_erase_of_ne hjne).mpr hjin
          by_cases hm'top : m' = m + 1
          · subst hm'top
            exact ⟨h1, hdout⟩
          · have := ih { fs with dirs := fs.dirs.erase (pl.take (m + 1)) }
              (by omega) (hnd.erase _) j hj1 hj2' hjin' hjout m' hm'1 (by omega)
            exact ⟨List.mem_of_mem_erase this.1, this.2⟩
    · rw [if_neg h1] at hjout ⊢
      exact absurd hjin hjout

theorem pruneFrom_stops (pl : List String) :
    ∀ (m : Nat) (fs : FS), m ≤ pl.length →
      ∀ m₀, 1 ≤ m₀ → m₀ ≤ m →
        ((∃ p ∈ fs.files, p.1 = pl.take m₀) ∨
         (∃ p ∈ fs.dirs, p ≠ [] ∧ p.dropLast = pl.take m₀ ∧ p ≠ pl.take (m₀ + 1))) →
        ∀ m', m' ≤ m₀ → pl.take m' ∈ fs.dirs →
          pl.take m' ∈ (pruneFrom pl m fs).dirs := by
  intro m
  induction m with
  | zero =>
    intro fs _ m₀ hm₀1 hm₀2 _ _ _
    omega
  | succ m ih =>
    intro fs hm m₀ hm₀1 hm₀2 hfor m' hm' hin
    rw [pruneFrom]
    by_cases h1 : pl.take (m + 1) ∈ fs.dirs
    · rw [if_pos h1]
      by_cases h2 : hasEntries fs (pl.take (m + 1))
      · rw [if_pos h2]
        exact hin
      · rw [if_neg h2]
        -- the foreign entry shows this is not the level m₀
        have hm₀m : m₀ ≠ m + 1 := by
          intro he
          subst he
          rw [Bool.not_eq_true, hasEntries_false_iff] at h2
          rcases hfor with ⟨p, hp, hpe⟩ | ⟨p, hp, hpne, hpd, _⟩
          · exact h2.1 p hp hpe
          · exact h2.2 p hp hpne hpd
        have hm₀le : m₀ ≤ m := by omega
        have hfor' : (∃ p ∈ fs.files, p.1 = pl.take m₀) ∨
            (∃ p ∈ (fs.dirs.erase (pl.take (m + 1))), p ≠ [] ∧
              p.dropLast = pl.take m₀ ∧ p ≠ pl.take (m₀ + 1)) := by
          rcases hfor with h | ⟨p, hp, hpne, hpd, hpns⟩
          · exact Or.inl h
          · refine Or.inr ⟨p, ?_, hpne, hpd, hpns⟩
            have hplen : p.length = m₀ + 1 := by
              have h1l : p.dropLast.length = (pl.take m₀).length := by rw [hpd]
              rw [List.length_dropLast, List.length_take] at h1l
              have hpl : p.length ≠ 0 := by
                intro hz
                exact hpne (List.eq_nil_of_length_eq_zero hz)
              omega
            have hpne' : p ≠ pl.take (m + 1) := by
              intro he
              have : p.length = (pl.take (m + 1)).length := by rw [he]
              rw [List.length_take] at this
              have hmeq : m₀ = m := by omega
              subst hmeq
              exact hpns (by rw [he])
            exact (List.mem_erase_of_ne hpne').mpr hp
        have hin' : pl.take m' ∈ fs.dirs.erase (pl.take (m + 1)) := by
          refine (List.mem_erase_of_ne ?_).mpr hin
          intro he
          have : (pl.take m').length = (pl.take (m + 1)).length := by rw [he]
          rw [List.length_take, List.length_take] at this
          omega
        exact ih { fs with dirs := fs.dirs.erase (pl.take (m + 1)) }
          (by omega) m₀ hm₀1 hm₀le hfor' m' hm' hin'
    · rw [if_neg h1]
      exact hin

theorem pruneFrom_complete (pl : List String) :
    ∀ (m : Nat) (fs : FS), m ≤ pl.length → fs.dirs.Nodup →
      (∀ j, 1 ≤ j → j ≤ m → pl.take j ∈ fs.dirs ∧
        (∀ p ∈ fs.files, p.1 ≠ pl.take j) ∧
        (∀ p ∈ fs.dirs, p ≠ [] → p.dropLast = pl.take j →
          p = pl.take (j + 1) ∧ j + 1 ≤ m)) →
      ∀ j, 1 ≤ j → j ≤ m → pl.take j ∉ (pruneFrom pl m fs).dirs := by
  intro m
  induction m with
  | zero =>
    intro fs _ _ _ j hj1 hj2
    omega
  | succ m ih =>
    intro fs hm hnd hall j hj1 hj2
    have htop := hall (m + 1) (by omega) (le_refl _)
    have hent : ¬ hasEntries fs (pl.take (m + 1)) = true := by
      rw [Bool.not_eq_true, hasEntries_false_iff]
      refine ⟨htop.2.1, ?_⟩
      intro p hp hpne hpd
      have := (htop.2.2 p hp hpne hpd).2
      omega
    rw [pruneFrom, if_pos htop.1, if_neg hent]
    have hdd : pl.take (m + 1) ∉ fs.dirs.erase (pl.take (m + 1)) := by
      intro hmem
      exact absurd ((hnd.mem_erase_iff.mp hmem).1) (by simp)
    by_cases hjm : j = m + 1
    · subst hjm
      exact fun hmem => hdd (pruneFrom_dirs_subset pl m _ _ hmem)
    · have hj2' : j ≤ m := by omega
      refine ih { fs with dirs := fs.dirs.erase (pl.take (m + 1)) } (by omega)
        (hnd.erase _) ?_ j hj1 hj2'
      intro i hi1 hi2
      have hio := hall i hi1 (by omega)
      refine ⟨?_, hio.2.1, ?_⟩
      · refine (List.mem_erase_of_ne ?_).mpr hio.1
        exact take_ne_take_of_ne (by omega) (by omega) hm
      · intro p hp hpne hpd
        have hpfs : p ∈ fs.dirs := List.mem_of_mem_erase hp
        have hpe := hio.2.2 p hpfs hpne hpd
        by_cases him : i = m
        · -- the child would be the just-erased directory
          exfalso
          have hpd' : p = pl.take (m + 1) := by
            rw [hpe.1, him]
          exact (hnd.mem_erase_iff.mp hp).1 hpd'
        · exact ⟨hpe.1, by omega⟩

/-- Claim C9 (confirmed).  `pruneDirs` examines the ancestor prefixes of
the key's transformed path from deepest to shallowest and:
(i) never touches files;
(ii) never creates directories;
(iii) leaves every directory that is not an ancestor prefix of the
key's path — in particular any sibling key's directories — exactly as
it was;
(iv) therefore never removes the base directory (`[]`);
(v) removes a prefix only deepest-first: if some level was removed, every
deeper level existed and was removed as well;
(vi) stops at the first non-empty directory: a level holding a file or a
subdirectory other than the on-path child survives, together with every
shallower level;
(vii) and when every level of the path is empty apart from the chain
itself, all of them are removed. -/
theorem c9_pruneDirs (fs : FS) (pl : List String) (hnd : fs.dirs.Nodup) :
    (pruneDirs fs pl).files = fs.files ∧
    (∀ d, d ∈ (pruneDirs fs pl).dirs → d ∈ fs.dirs) ∧
    (∀ d, (∀ j, 1 ≤ j → j ≤ pl.length → d ≠ pl.take j) →
      (d ∈ fs.dirs ↔ d ∈ (pruneDirs fs pl).dirs)) ∧
    (([] : List String) ∈ fs.dirs ↔ [] ∈ (pruneDirs fs pl).dirs) ∧
    (∀ j, 1 ≤ j → j ≤ pl.length → pl.take j ∈ fs.dirs →
      pl.take j ∉ (pruneDirs fs pl).dirs →
      ∀ m', j ≤ m' → m' ≤ pl.length →
        pl.take m' ∈ fs.dirs ∧ pl.take m' ∉ (pruneDirs fs pl).dirs) ∧
    (∀ m₀, 1 ≤ m₀ → m₀ ≤ pl.length →
      ((∃ p ∈ fs.files, p.1 = pl.take m₀) ∨
       (∃ p ∈ fs.dirs, p ≠ [] ∧ p.dropLast = pl.take m₀ ∧
         p ≠ pl.take (m₀ + 1))) →
      ∀ m', m' ≤ m₀ → pl.take m' ∈ fs.dirs →
        pl.take m' ∈ (pruneDirs fs pl).dirs) ∧
    ((∀ j, 1 ≤ j → j ≤ pl.length → pl.take j ∈ fs.dirs ∧
        (∀ p ∈ fs.files, p.1 ≠ pl.take j) ∧
        (∀ p ∈ fs.dirs, p ≠ [] → p.dropLast = pl.take j →
          p = pl.take (j + 1) ∧ j + 1 ≤ pl.length)) →
      ∀ j, 1 ≤ j → j ≤ pl.length → pl.take j ∉ (pruneDirs fs pl).dirs) := by
  refine ⟨pruneFrom_files pl pl.length fs,
    fun d => pruneFrom_dirs_subset pl pl.length fs d,
    fun d hd => pruneFrom_frame pl pl.length fs d hd, ?_,
    fun j hj1 hj2 => pruneFrom_removed_deeper pl pl.length fs (le_refl _) hnd
      j hj1 hj2,
    fun m₀ hm₀1 hm₀2 => pruneFrom_stops pl pl.length fs (le_refl _) m₀ hm₀1 hm₀2,
    fun hall => pruneFrom_complete pl pl.length fs (le_refl _) hnd hall⟩
  refine pruneFrom_frame pl pl.length fs [] ?_
  intro j hj1 hj2 he
  have : ([] : List String).length = (pl.take j).length := by rw [he]
  rw [List.length_take] at this
  simp only [List.length_nil] at this
  omega

/-- Witness for C9 on a concrete tree: base `[]` holds `a` (with the
sole key's directory chain `a/b` below it) and a sibling `c` holding a
file.  Pruning the erased key's path `["a","b"]` removes `a/b` and `a`,
keeps the base and the sibling `c` with its file. -/
theorem c9_pruneDirs_witness :
    (pruneDirs ⟨[[], ["a"], ["a", "b"], ["c"]], [(["c"], "x")]⟩ ["a", "b"]).files =
      [(["c"], "x")] ∧
    ((["c"] : List String) ∈
      (pruneDirs ⟨[[], ["a"], ["a", "b"], ["c"]], [(["c"], "x")]⟩ ["a", "b"]).dirs) ∧
    (([] : List String) ∈
      (pruneDirs ⟨[[], ["a"], ["a", "b"], ["c"]], [(["c"], "x")]⟩ ["a", "b"]).dirs) ∧
    ((["a"] : List String) ∉
      (pruneDirs ⟨[[], ["a"], ["a", "b"], ["c"]], [(["c"], "x")]⟩ ["a", "b"]).dirs) ∧
    ((["a", "b"] : List String) ∉
      (pruneDirs ⟨[[], ["a"], ["a", "b"], ["c"]], [(["c"], "x")]⟩ ["a", "b"]).dirs) := by
  obtain ⟨h1, _, h3, h4, _, _, h7⟩ :=
    c9_pruneDirs ⟨[[], ["a"], ["a", "b"], ["c"]], [(["c"], "x")]⟩ ["a", "b"]
      (by decide)
  have hall : ∀ j, 1 ≤ j → j ≤ (["a", "b"] : List String).length →
      (["a", "b"] : List String).take j ∈
        (⟨[[], ["a"], ["a", "b"], ["c"]], [(["c"], "x")]⟩ : FS).dirs ∧
      (∀ p ∈ (⟨[[], ["a"], ["a", "b"], ["c"]], [(["c"], "x")]⟩ : FS).files,
        p.1 ≠ (["a", "b"] : List String).take j) ∧
      (∀ p ∈ (⟨[[], ["a"], ["a", "b"], ["c"]], [(["c"], "x")]⟩ : FS).dirs,
        p ≠ [] → p.dropLast = (["a", "b"] : List String).take j →
        p = (["a", "b"] : List String).take (j + 1) ∧
          j + 1 ≤ (["a", "b"] : List String).length) := by
    decide
  refine ⟨h1, ?_, h4.mp (by decide), ?_, ?_⟩
  · exact (h3 ["c"] (by decide)).mp (by decide)
  · exact h7 hall 1 (by decide) (by decide)
  · exact h7 hall 2 (by decide) (by decide)

end Diskv
